import Mathlib

/-!
Verification development for the AssetChain cNGN data pipeline
(`src/index.ts` variants A and B, `src/calculate_vwap.ts`,
`src/extract_trades.ts`, `src/api.ts`).

The TypeScript source is shallowly embedded here:

* JavaScript numbers that hold decoded token amounts are modelled as exact
  rationals (`ℚ`); the claims under study are about the decimal values the
  code manipulates, not about binary-float rounding.
* `BigInt(value)` on the decimal digit strings delivered by the upstream API
  is modelled by `jsBigIntVal?` (empty string ↦ 0, digit string ↦ its value,
  anything else ↦ failure, standing for the thrown `SyntaxError`).  Hex /
  signed / whitespace BigInt literals never occur in this data and are out of
  the modelled subset.
* `String.prototype.slice` with possibly negative or out-of-range indices is
  modelled by `jsSlice` with the exact ECMAScript clamping rules.
* Calendar dates (`YYYY-MM-DD` keys, `Date` arithmetic in UTC) are modelled
  as epoch-day integers: for valid ISO dates the string order used by the
  source coincides with the numeric day order, and
  `Date#setDate(getDate()+1)` on a UTC midnight date is `+1` day.  The hard
  iteration ceiling `new Date('2030-01-01')` is the concrete epoch day
  `daysFromCivil 2030 1 1`.
-/

namespace AssetChain

/-! ## Digit strings and JS `BigInt` -/

/-- Numeric value of a list of decimal digit characters, most significant
first — the value denoted by the digit substring the source manipulates. -/
def digitsVal (l : List Char) : Nat :=
  l.foldl (fun a c => a * 10 + (c.toNat - 48)) 0

/-- All characters are decimal digits. -/
def allDigits (s : String) : Bool := s.toList.all Char.isDigit

/-- Model of `BigInt(value)` on the amount strings of this pipeline:
the empty string gives `0n`, a digit string gives its value, anything else
throws (modelled as `none`).  Hex/sign/whitespace literal forms accepted by
full ECMAScript `BigInt` never arise in this data and are not modelled. -/
def jsBigIntVal? (s : String) : Option Nat :=
  if allDigits s then some (digitsVal s.toList) else none

/-- Decimal digit character of `n < 10`, as produced by `Number#toString`. -/
def digitChar (n : Nat) : Char := Char.ofNat (48 + n)

/-- Fuel-driven digit extraction loop (fuel keeps the recursion structural;
any fuel above the number of digits gives the same result). -/
def natToDigitsCore : Nat → Nat → List Char → List Char
  | 0, _, acc => acc
  | fuel + 1, n, acc =>
    if n = 0 then acc
    else natToDigitsCore fuel (n / 10) (digitChar (n % 10) :: acc)

/-- Canonical decimal digit list of `n` (the result of `BigInt#toString`):
no leading zeros, and `"0"` for zero. -/
def natToDigits (n : Nat) : List Char :=
  if n = 0 then ['0'] else natToDigitsCore (n + 1) n []

/-! ## JS string `slice` -/

/-- ECMAScript index conversion for `String.prototype.slice`: negative
indices count from the end, then the index is clamped to `[0, len]`. -/
def jsSliceIdx (len : Nat) (i : Int) : Nat :=
  (max 0 (min (if i < 0 then (len : Int) + i else i) (len : Int))).toNat

/-- Model of `s.slice(a, b)` on a string given as a character list. -/
def jsSlice (l : List Char) (a b : Int) : List Char :=
  (l.take (jsSliceIdx l.length b)).drop (jsSliceIdx l.length a)

/-- Model of one-argument `s.slice(a)`. -/
def jsSliceFrom (l : List Char) (a : Int) : List Char :=
  jsSlice l a (l.length : Int)

/-! ## The amount decoder (variant B, `src/index.ts` lines 486–494) -/

/-- Model of the `while (s.length <= decimals) s = '0' + s;` padding loop. -/
def padLoop (d : Int) (s : List Char) : List Char :=
  List.replicate ((d + 1).toNat - s.length) '0' ++ s

/-- Model of `fractionalPart.replace(/0+$/, '')`. -/
def stripTrailingZeros (l : List Char) : List Char :=
  (l.reverse.dropWhile (· == '0')).reverse

/-- Exact numeric value of the decimal literal
`integerPart ++ "." ++ fractionalPart` (or just `integerPart` when the
fractional part is empty) that the source hands to `parseFloat`. -/
def decimalVal (intPart fracPart : List Char) : ℚ :=
  (digitsVal intPart : ℚ) + (digitsVal fracPart : ℚ) / ((10 ^ fracPart.length : Nat) : ℚ)

/-- Core of the variant-B decoder, after `BigInt(...).toString()`:
pad with leading zeros while `length <= decimals`, split `decimals` from the
right, strip trailing fractional zeros, parse. -/
def decodeDigits (s0 : List Char) (d : Int) : ℚ :=
  decimalVal
    (jsSlice (padLoop d s0) 0 (((padLoop d s0).length : Int) - d))
    (stripTrailingZeros (jsSliceFrom (padLoop d s0) (((padLoop d s0).length : Int) - d)))

/-- The variant-B amount decoder (`src/index.ts` 486–494 and 501–509):
`BigInt(raw).toString()`, pad, split at `decimals` from the right, strip
trailing fractional zeros, parse.  `none` models the exception thrown by
`BigInt` on a non-numeric string. -/
def decodeAmount (raw : String) (d : Int) : Option ℚ :=
  (jsBigIntVal? raw).map fun nv => decodeDigits (natToDigits nv) d

/-- The variant-A amount decoder (`src/index.ts` 117–127):
`if (str.length > decimals)` split with a dot, else parse
`'0.' + str.padStart(decimals, '0')`. -/
def decodeAmountA (raw : String) (d : Int) : Option ℚ :=
  (jsBigIntVal? raw).map fun nv =>
    if d < ((natToDigits nv).length : Int) then
      decimalVal
        (jsSlice (natToDigits nv) 0 (((natToDigits nv).length : Int) - d))
        (jsSliceFrom (natToDigits nv) (((natToDigits nv).length : Int) - d))
    else
      decimalVal ['0'] (List.replicate (d.toNat - (natToDigits nv).length) '0' ++ natToDigits nv)

/-! ## Token transfers and the per-transaction processors (`src/index.ts`)

A `TransferItem` models one element of the upstream `token_transfers` items:
only the fields the pipeline reads.  `Option` models absent / falsy JSON
fields (`none` also covers the empty string for the `|| default` chains);
`exchangeRate` carries the parsed numeric value of the `exchange_rate`
string directly.  Fields of the emitted rows that no claim mentions
(classifier output such as trader / pool / token-in / token-out, block
metadata, gas) are not modelled. -/

/-- Model of `String.prototype.toLowerCase` on ASCII addresses. -/
def asciiLowerChar (c : Char) : Char :=
  if 'A' ≤ c ∧ c ≤ 'Z' then Char.ofNat (c.toNat + 32) else c

/-- ASCII lowercase of a string. -/
def asciiLower (s : String) : String := String.mk (s.toList.map asciiLowerChar)

/-- The `CNGN_ADDRESS` constant (`'0x7923…FC4F'.toLowerCase()`). -/
def CNGN_ADDRESS : String := asciiLower "0x7923C0f6FA3d1BA6EAFCAedAaD93e737Fd22FC4F"

/-- The `CNGN_USD_FALLBACK` constant `0.000657`. -/
def CNGN_USD_FALLBACK : ℚ := 657 / 1000000

/-- One party of a transfer (`from` / `to`): address hash and optional name. -/
structure Party where
  hash : String
  name : Option String
deriving DecidableEq

/-- The `token` object of a transfer. -/
structure TokenInfo where
  address : String
  symbol : String
  decimals : Option Int
  exchangeRate : Option ℚ
deriving DecidableEq

/-- The `total` object of a transfer. -/
structure TotalInfo where
  value : Option String
  decimals : Option Int
deriving DecidableEq

/-- One token transfer inside a transaction. -/
structure TransferItem where
  fromP : Party
  toP : Party
  token : TokenInfo
  total : TotalInfo
deriving DecidableEq

/-- The transfer moves the token of interest
(`item.token.address.toLowerCase() === CNGN_ADDRESS`). -/
def isCngnItem (i : TransferItem) : Bool := asciiLower i.token.address == CNGN_ADDRESS

/-- The transfer carries symbol `USDT` (`i.token.symbol === 'USDT'`). -/
def isUsdtItem (i : TransferItem) : Bool := i.token.symbol == "USDT"

/-- Variant-B cNGN amount of one transfer (`src/index.ts` 485–495):
guarded by `if (cngnItem.total && cngnItem.total.value)`, decoded with
`parseInt(cngnItem.token.decimals || '6')`.  `Except.error` models a thrown
`BigInt` exception. -/
def cngnValB (it : TransferItem) : Except Unit (Option ℚ) :=
  match it.total.value with
  | none => .ok none
  | some v =>
    if v == "" then .ok none
    else match decodeAmount v (it.token.decimals.getD 6) with
      | some q => .ok (some q)
      | none => .error ()

/-- Variant-B valuation tier 1 (`src/index.ts` 499–510): find the first
transfer with symbol `USDT`, and if its `total.value` is truthy decode it
with `parseInt(usdtItem.total.decimals || usdtItem.token.decimals || '6')`. -/
def usdTier1 (items : List TransferItem) : Except Unit (Option ℚ) :=
  match items.find? isUsdtItem with
  | none => .ok none
  | some it =>
    match it.total.value with
    | none => .ok none
    | some v =>
      if v == "" then .ok none
      else match decodeAmount v (it.total.decimals.getD (it.token.decimals.getD 6)) with
        | some q => .ok (some q)
        | none => .error ()

/-- Variant-B USD valuation (`src/index.ts` 497–517): tier 1 result if it
produced a value, otherwise `(cngnVal || 0) * rate` where the rate is the
cNGN transfer's `token.exchange_rate` when truthy, else the hardcoded
fallback. -/
def usdValueB (items : List TransferItem) (cngnItem : TransferItem)
    (cv : Option ℚ) : Except Unit ℚ :=
  match usdTier1 items with
  | .error e => .error e
  | .ok (some q) => .ok q
  | .ok none =>
    .ok ((cv.getD 0) *
      (match cngnItem.token.exchangeRate with
       | some r => r
       | none => CNGN_USD_FALLBACK))

/-- Modelled from the spec for comparison with `usdValueB` (which is
translated from the code): the tiered valuation policy in the words of the
spec and claim C1, whose first tier matches a transfer carrying symbol
`USDT` *or* `USDC`. -/
def usdValueSpecTiered (items : List TransferItem) (cngnItem : TransferItem)
    (cv : Option ℚ) : Except Unit ℚ :=
  match
    (match items.find? (fun i => i.token.symbol == "USDT" || i.token.symbol == "USDC") with
     | none => (.ok none : Except Unit (Option ℚ))
     | some it =>
       match it.total.value with
       | none => .ok none
       | some v =>
         if v == "" then .ok none
         else match decodeAmount v (it.total.decimals.getD (it.token.decimals.getD 6)) with
           | some q => .ok (some q)
           | none => .error ()) with
  | .error e => .error e
  | .ok (some q) => .ok q
  | .ok none =>
    .ok ((cv.getD 0) *
      (match cngnItem.token.exchangeRate with
       | some r => r
       | none => CNGN_USD_FALLBACK))

/-- The record a variant-B row contributes to the ledger, restricted to the
fields the claims mention. -/
structure RecordB where
  txHash : String
  cngnAmount : Option ℚ
  usdValue : ℚ
deriving DecidableEq

/-- The `for (const cngnItem of cngnItems)` loop of variant B: one record
per cNGN transfer, sequential, a thrown exception aborts the whole
transaction. -/
def buildRecordsB (hash : String) (items : List TransferItem) :
    List TransferItem → Except Unit (List RecordB)
  | [] => .ok []
  | it :: rest => do
    let cv ← cngnValB it
    let u ← usdValueB items it cv
    let tail ← buildRecordsB hash items rest
    pure (⟨hash, cv, u⟩ :: tail)

/-- Variant-B `processSingleTransaction` (`src/index.ts` 421–542).
`present` stands for `details && transfersResponse && transfersResponse.items`
all being truthy. -/
def processSingleTransactionB (present : Bool) (hash : String)
    (items : List TransferItem) : Except Unit (List RecordB) :=
  if !present then .ok []
  else if (items.filter isCngnItem).isEmpty then .ok []
  else buildRecordsB hash items (items.filter isCngnItem)

/-- The record a variant-A row contributes to the ledger, restricted to the
fields the claims mention. -/
structure RecordA where
  txHash : String
  cngnAmount : ℚ
  usdValue : ℚ
deriving DecidableEq

/-- Variant-A per-transfer decoded value (`src/index.ts` 117–127):
`val = 0` unless `item.total && item.total.value` is truthy, decoded with
`parseInt(item.token.decimals || '18')`. -/
def valA (it : TransferItem) : Except Unit ℚ :=
  match it.total.value with
  | none => .ok 0
  | some v =>
    if v == "" then .ok 0
    else match decodeAmountA v (it.token.decimals.getD 18) with
      | some q => .ok q
      | none => .error ()

/-- One iteration of variant A's transfer loop, restricted to the state the
claims mention: `(cngnAmt, usdValue)` (`src/index.ts` 114–145). -/
def stepA (st : ℚ × ℚ) (it : TransferItem) : Except Unit (ℚ × ℚ) := do
  let v ← valA it
  pure (if isCngnItem it then st.1 + v else st.1,
    if it.token.symbol == "USDT" || it.token.symbol == "USDC" then v else st.2)

/-- Variant-A `processSingleTransaction` (`src/index.ts` 51–183): requires
a cNGN transfer, aggregates over all transfers, emits exactly one row,
applying the fallback `usdValue = cngnAmt * CNGN_USD_FALLBACK` when
`usdValue === 0 && cngnAmt > 0`. -/
def processSingleTransactionA (present : Bool) (hash : String)
    (items : List TransferItem) : Except Unit (List RecordA) :=
  if !present then .ok []
  else if !(items.any isCngnItem) then .ok []
  else do
    let st ← items.foldlM stepA (0, 0)
    pure [⟨hash, st.1,
      if st.2 = 0 ∧ 0 < st.1 then st.1 * CNGN_USD_FALLBACK else st.2⟩]

/-! ## The Delta Fetcher hash-collection loop (`src/index.ts` 262–270) -/

/-- Model of `items.forEach(item => { const h = item.transaction_hash;
if (h && !seenHashes.has(h)) { seenHashes.add(h);
currentBatchHashes.push(h); } })`.  Each list item is its
`transaction_hash`, with `""` standing for a falsy / missing hash.  Returns
the final `(seenHashes, currentBatchHashes)`. -/
def collectLoop : List String → List String → List String → List String × List String
  | seen, batch, [] => (seen, batch)
  | seen, batch, h :: rest =>
    if h != "" && !(seen.contains h) then
      collectLoop (seen ++ [h]) (batch ++ [h]) rest
    else
      collectLoop seen batch rest

/-! ## The resume-scan dedup index (`loadExistingHashes`, `src/index.ts` 187–229) -/

/-- Drop one leading double quote, if present. -/
def dropLeadQuote : List Char → List Char
  | '"' :: rest => rest
  | l => l

/-- Drop one trailing double quote, if present. -/
def dropTrailQuote (l : List Char) : List Char :=
  match l.reverse with
  | '"' :: rest => rest.reverse
  | _ => l

/-- Model of `hash.replace(/^"|"$/g, '')`: remove one leading and one
trailing double quote, each at most once, independently. -/
def stripQuotes (s : String) : String :=
  String.mk (dropTrailQuote (dropLeadQuote s.toList))

/-- The first comma-separated field of a line: `line.split(',')[0]`. -/
def firstField (line : String) : String :=
  String.mk (line.toList.takeWhile (fun c => c != ','))

/-- Model of `hash.startsWith('0x')`. -/
def startsWith0x (s : String) : Bool :=
  match s.toList with
  | '0' :: 'x' :: _ => true
  | _ => false

/-- One line of the resume scan (`src/index.ts` 202–216): if the first
field is truthy, strip quotes, and add the hash when it starts with `0x`.
The JS `Set` is modelled as a list, read only through membership. -/
def loadStep (hashes : List String) (line : String) : List String :=
  if firstField line ≠ "" then
    if startsWith0x (stripQuotes (firstField line)) then
      hashes ++ [stripQuotes (firstField line)]
    else hashes
  else hashes

/-- `loadExistingHashes` over the ledger's lines: skip the header line,
fold `loadStep` over the rest (an absent file is the empty list). -/
def loadExistingHashes (lines : List String) : List String :=
  match lines with
  | [] => []
  | _ :: rest => rest.foldl loadStep []

/-- Model of `replace(/"/g, '""')`. -/
def escapeQuotes : List Char → List Char
  | [] => []
  | '"' :: rest => '"' :: '"' :: escapeQuotes rest
  | c :: rest => c :: escapeQuotes rest

/-- The CSV escaping helper (`escapeCsv`, `src/index.ts` 17–24), on string
values (the hash column is always a string). -/
def escapeCsv (value : String) : String :=
  if value.toList.contains ',' || value.toList.contains '"'
      || value.toList.contains '\n' then
    String.mk ('"' :: (escapeQuotes value.toList ++ ['"']))
  else value

/-! ## The per-item retry loop (`pipelineBatch`, `src/index.ts` 317–336) -/

/-- Outcome of one `processSingleTransaction` call: a result, or a thrown
error carrying its message (`""` for a falsy / absent message). -/
inductive Attempt (α : Type) where
  | ok (val : α)
  | err (msg : String)

/-- The needle list is a prefix of the hay list. -/
def isPrefixList : List Char → List Char → Bool
  | [], _ => true
  | _ :: _, [] => false
  | a :: as, b :: bs => a == b && isPrefixList as bs

/-- The needle occurs contiguously somewhere in the hay. -/
def occursIn (needle : List Char) : List Char → Bool
  | [] => needle.isEmpty
  | c :: rest => isPrefixList needle (c :: rest) || occursIn needle rest

/-- Model of `hay.includes(needle)`. -/
def containsSub (hay needle : String) : Bool := occursIn needle.toList hay.toList

/-- The `while (retries > 0)` loop: `f` yields the outcome of attempt `i`,
`jitter i` the value of `Math.random() * 1000` before attempt `i + 1`.
Returns the item's result (`none` = dropped) and the backoff delays slept,
in order (`2000 + jitter` for a 429 signal, fixed `3000` for a 500 signal;
any other failure is terminal). -/
def runRetries {α : Type} (f : Nat → Attempt α) (jitter : Nat → ℚ) :
    Nat → Nat → Option α × List ℚ
  | 0, _ => (none, [])
  | budget + 1, i =>
    match f i with
    | .ok v => (some v, [])
    | .err m =>
      if containsSub m "429" then
        ((runRetries f jitter budget (i + 1)).1,
          (2000 + jitter i) :: (runRetries f jitter budget (i + 1)).2)
      else if containsSub m "500" then
        ((runRetries f jitter budget (i + 1)).1,
          3000 :: (runRetries f jitter budget (i + 1)).2)
      else (none, [])

/-- The per-item entry point: `let retries = 3` (`src/index.ts` 318). -/
def processWithRetries {α : Type} (f : Nat → Attempt α) (jitter : Nat → ℚ) :
    Option α × List ℚ :=
  runRetries f jitter 3 0

/-- The `results.reduce` null-filter (`src/index.ts` 340–345): dropped
items (`null`) contribute nothing to the appended rows. -/
def collectValid {α : Type} (l : List (Option (List α))) : List α :=
  l.foldl (fun acc v => match v with | some x => acc ++ x | none => acc) []

/-! ## The VWAP series builder (`src/calculate_vwap.ts`)

Calendar dates are modelled as epoch-day integers (days since 1970-01-01,
UTC).  For the valid `YYYY-MM-DD` keys this pipeline produces, string
comparison and equality agree with day-number comparison and equality, and
the walk's `currentDate.setDate(currentDate.getDate() + 1)` on a UTC
midnight `Date` is `+1` epoch day, `toISOString` inverting the parse.  The
`Map` of daily buckets is modelled as a function to `Option DailyStat`. -/

/-- Epoch day number of a civil date (standard days-from-civil algorithm,
valid for years ≥ 1, which covers every date this pipeline handles —
every intermediate quantity is then non-negative, so the integer divisions
are exact in any rounding convention). -/
def daysFromCivil (y m d : Int) : Int :=
  (if m ≤ 2 then y - 1 else y) / 400 * 146097
    + ((if m ≤ 2 then y - 1 else y) - (if m ≤ 2 then y - 1 else y) / 400 * 400) * 365
    + ((if m ≤ 2 then y - 1 else y) - (if m ≤ 2 then y - 1 else y) / 400 * 400) / 4
    - ((if m ≤ 2 then y - 1 else y) - (if m ≤ 2 then y - 1 else y) / 400 * 400) / 100
    + (153 * ((m + 9) % 12) + 2) / 5 + d - 1
    - 719468

/-- The hard iteration ceiling `new Date('2030-01-01')`
(`SAFETY_YEAR_LIMIT`, `src/calculate_vwap.ts` 170), as an epoch day. -/
def SAFETY_LIMIT : Int := daysFromCivil 2030 1 1

/-- The dust threshold literal `0.000001`. -/
def dust : ℚ := 1 / 1000000

/-- One daily aggregation bucket (`DailyStat`). -/
structure DailyStat where
  totalUsd : ℚ
  totalCngn : ℚ
deriving DecidableEq

/-- One output row (`VwapRecord`), with the date as an epoch day. -/
structure VwapRecord where
  date : Int
  vwap : ℚ
  volumeCngn : ℚ
  volumeUsd : ℚ
deriving DecidableEq

/-- One parsed, well-formed ledger line (at least 18 columns), restricted
to the columns `calculateVWAP` reads.  `cngnRaw` / `usdRaw` carry the
`parseFloat` results, `none` modelling `NaN`. -/
structure LedgerRow where
  dateKey : Int
  contractName : String
  tokenInSym : String
  tokenOutSym : String
  cngnRaw : Option ℚ
  usdRaw : Option ℚ
  poolName : String

/-- Bucket update: `if (!dailyStats.has(dateKey)) set(dateKey, {0,0});
stat.totalCngn += cngnAmount; stat.totalUsd += usdValue`. -/
def updateStats (m : Int → Option DailyStat) (r : LedgerRow) :
    Int → Option DailyStat :=
  fun k =>
    if k = r.dateKey then
      some ⟨((m r.dateKey).getD ⟨0, 0⟩).totalUsd + r.usdRaw.getD 0,
            ((m r.dateKey).getD ⟨0, 0⟩).totalCngn + r.cngnRaw.getD 0⟩
    else m k

/-- Range tracking: `if (minDate === '' || dateKey < minDate) minDate =
dateKey; if (maxDate === '' || dateKey > maxDate) maxDate = dateKey`
(`none` is the initial empty-string state). -/
def updateMinmax (mm : Option (Int × Int)) (d : Int) : Option (Int × Int) :=
  match mm with
  | none => some (d, d)
  | some (lo, hi) =>
    some ((if d < lo then d else lo), (if hi < d then d else hi))

/-- One line of the aggregation pass (`src/calculate_vwap.ts` 95–152):
the router/stablecoin filter, the NaN guard, the dust guard, then the
bucket and range updates. -/
def processLine (st : (Int → Option DailyStat) × Option (Int × Int))
    (r : LedgerRow) : (Int → Option DailyStat) × Option (Int × Int) :=
  if r.contractName == "SwapRouter"
      && (r.tokenInSym == "USDT" || r.tokenInSym == "USDC"
          || r.tokenOutSym == "USDT" || r.tokenOutSym == "USDC"
          || (r.poolName != ""
              && (containsSub r.poolName "USDT" || containsSub r.poolName "USDC"))) then
    match r.cngnRaw, r.usdRaw with
    | some c, some u =>
      if c ≤ dust ∨ u ≤ dust then st
      else (updateStats st.1 r, updateMinmax st.2 r.dateKey)
    | _, _ => st
  else st

/-- The whole aggregation pass over the ledger's data rows. -/
def vwapFold (rows : List LedgerRow) :
    (Int → Option DailyStat) × Option (Int × Int) :=
  rows.foldl processLine (fun _ => none, none)

/-- The trade-qualification predicate in the flat form the claims state it:
routed through the `SwapRouter`, involving USDT or USDC directly or via the
pool name, with parseable amounts both above the dust threshold. -/
def qualifiesRow (r : LedgerRow) : Bool :=
  r.contractName == "SwapRouter"
    && (r.tokenInSym == "USDT" || r.tokenInSym == "USDC"
        || r.tokenOutSym == "USDT" || r.tokenOutSym == "USDC"
        || (r.poolName != ""
            && (containsSub r.poolName "USDT" || containsSub r.poolName "USDC")))
    && (match r.cngnRaw, r.usdRaw with
        | some c, some u => decide (dust < c) && decide (dust < u)
        | _, _ => false)

/-- One day of the output walk (`src/calculate_vwap.ts` 178–206): the
emitted record and the updated `lastKnownVwap`. -/
def stepDay (stats : Int → Option DailyStat) (d : Int) (last : ℚ) :
    VwapRecord × ℚ :=
  match stats d with
  | some st =>
    if 0 < st.totalCngn then
      (⟨d, st.totalUsd / st.totalCngn, st.totalCngn, st.totalUsd⟩,
        st.totalUsd / st.totalCngn)
    else (⟨d, last, 0, 0⟩, last)
  | none => (⟨d, last, 0, 0⟩, last)

/-- The day-by-day walk, by remaining iteration count. -/
def buildRows (stats : Int → Option DailyStat) : Nat → Int → ℚ → List VwapRecord
  | 0, _, _ => []
  | n + 1, d, last =>
    (stepDay stats d last).1 :: buildRows stats n (d + 1) (stepDay stats d last).2

/-- The `while (currentDate <= endDate && currentDate < SAFETY_YEAR_LIMIT)`
loop (`src/calculate_vwap.ts` 177–207), starting from `minDate` with
`lastKnownVwap = 0`: it visits exactly the days in
`[lo, min hi (SAFETY_LIMIT - 1)]`. -/
def generateSeries (stats : Int → Option DailyStat) (lo hi : Int) :
    List VwapRecord :=
  buildRows stats (min hi (SAFETY_LIMIT - 1) + 1 - lo).toNat lo 0

/-- The full series computation: empty output when no qualifying trade was
seen (`minDate === ''`), else the walk over the observed range. -/
def vwapSeries (rows : List LedgerRow) : List VwapRecord :=
  match (vwapFold rows).2 with
  | none => []
  | some (lo, hi) => generateSeries (vwapFold rows).1 lo hi

/-- The `lastKnownVwap` accumulator value after walking `n` days from `d`. -/
def lastKnownAfter (stats : Int → Option DailyStat) : Nat → Int → ℚ → ℚ
  | 0, _, last => last
  | n + 1, d, last => lastKnownAfter stats n (d + 1) (stepDay stats d last).2

/-- The day's bucket exists and has positive token volume. -/
def bucketPositive (stats : Int → Option DailyStat) (d : Int) : Prop :=
  ∃ st, stats d = some st ∧ 0 < st.totalCngn

/-! ## Concrete transfer fixtures used by the concrete evaluations -/

/-- A cNGN `token` object with 6 decimals and no exchange rate. -/
def cngnTokenFx : TokenInfo :=
  ⟨"0x7923C0f6FA3d1BA6EAFCAedAaD93e737Fd22FC4F", "cNGN", some 6, none⟩

/-- A cNGN transfer of raw amount `1000000` (1.0). -/
def itemCngnOne : TransferItem :=
  ⟨⟨"0xaaaa", none⟩, ⟨"0xcccc", none⟩, cngnTokenFx, ⟨some "1000000", none⟩⟩

/-- A cNGN transfer of raw amount `2000000` (2.0). -/
def itemCngnTwo : TransferItem :=
  ⟨⟨"0xcccc", none⟩, ⟨"0xaaaa", none⟩, cngnTokenFx, ⟨some "2000000", none⟩⟩

/-- A USDC transfer of raw amount `5000000` (5.0). -/
def itemUsdcFx : TransferItem :=
  ⟨⟨"0xaaaa", none⟩, ⟨"0xcccc", none⟩,
    ⟨"0x2222", "USDC", some 6, none⟩, ⟨some "5000000", none⟩⟩

/-- A cNGN transfer of raw amount `3000000` (3.0) whose token carries
`exchange_rate` 2. -/
def cngnItemRateFx : TransferItem :=
  ⟨⟨"0xaaaa", none⟩, ⟨"0xcccc", none⟩,
    ⟨"0x7923C0f6FA3d1BA6EAFCAedAaD93e737Fd22FC4F", "cNGN", some 6, some 2⟩,
    ⟨some "3000000", none⟩⟩

/-- A qualifying ledger row (router, USDT in, amounts 1.0) at epoch day 0. -/
def rowQualFx : LedgerRow := ⟨0, "SwapRouter", "USDT", "", some 1, some 1, ""⟩

/-- A ledger row through a non-router contract. -/
def rowNonRouterFx : LedgerRow := ⟨0, "cNGN Token", "USDT", "", some 1, some 1, ""⟩

/-- A qualifying ledger row dated exactly at the safety ceiling
2030-01-01. -/
def rowCeilFx : LedgerRow :=
  ⟨SAFETY_LIMIT, "SwapRouter", "USDT", "", some 1, some 1, ""⟩

/-- A bucket map with one positive day: day 0 has USD 4 and cNGN 2. -/
def statsFx : Int → Option DailyStat :=
  fun d => if d = 0 then some ⟨4, 2⟩ else none

/-! ## Arithmetic facts about the decoder -/

theorem digitsVal_from (ys : List Char) (a : Nat) :
    ys.foldl (fun a c => a * 10 + (c.toNat - 48)) a
      = a * 10 ^ ys.length + digitsVal ys := by
  induction ys generalizing a with
  | nil => simp [digitsVal]
  | cons c ys ih =>
    simp only [List.foldl_cons, List.length_cons, digitsVal]
    rw [ih, ih (0 * 10 + (c.toNat - 48))]
    ring

theorem digitsVal_append (xs ys : List Char) :
    digitsVal (xs ++ ys) = digitsVal xs * 10 ^ ys.length + digitsVal ys := by
  unfold digitsVal
  rw [List.foldl_append, digitsVal_from]
  rfl

theorem digitsVal_zeros {l : List Char} (h : ∀ c ∈ l, c = '0') :
    digitsVal l = 0 := by
  induction l with
  | nil => rfl
  | cons c t ih =>
    have hc := h c (by simp)
    have ht : ∀ c ∈ t, c = '0' := fun c hm => h c (by simp [hm])
    unfold digitsVal at ih ⊢
    subst hc
    simpa using ih ht

theorem digitsVal_replicate_zero (k : Nat) :
    digitsVal (List.replicate k '0') = 0 :=
  digitsVal_zeros (fun _ hc => List.eq_of_mem_replicate hc)

theorem digitsVal_padLeft (k : Nat) (s : List Char) :
    digitsVal (List.replicate k '0' ++ s) = digitsVal s := by
  rw [digitsVal_append, digitsVal_replicate_zero]
  simp

theorem digitChar_toNat {r : Nat} (h : r < 10) : (digitChar r).toNat = 48 + r := by
  interval_cases r <;> decide

theorem digitsVal_natToDigitsCore (fuel : Nat) :
    ∀ n acc, n < fuel → digitsVal (natToDigitsCore fuel n acc)
      = n * 10 ^ acc.length + digitsVal acc := by
  induction fuel with
  | zero => intro n acc h; omega
  | succ fuel ih =>
    intro n acc hlt
    rw [natToDigitsCore]
    by_cases hz : n = 0
    · rw [if_pos hz, hz]
      simp
    · rw [if_neg hz]
      have hd10 : n / 10 < fuel := by
        have := Nat.div_lt_self (Nat.pos_of_ne_zero hz) (show 1 < 10 by norm_num)
        omega
      rw [ih (n / 10) _ hd10]
      have hr : n % 10 < 10 := Nat.mod_lt _ (by norm_num)
      have hcons : digitsVal (digitChar (n % 10) :: acc)
          = (n % 10) * 10 ^ acc.length + digitsVal acc := by
        have hsplit : digitChar (n % 10) :: acc = [digitChar (n % 10)] ++ acc := rfl
        rw [hsplit, digitsVal_append]
        have hone : digitsVal [digitChar (n % 10)] = n % 10 := by
          unfold digitsVal
          simp [digitChar_toNat hr]
        rw [hone]
      rw [hcons, List.length_cons]
      have hkey : n / 10 * 10 ^ (acc.length + 1) + n % 10 * 10 ^ acc.length
          = n * 10 ^ acc.length := by
        rw [pow_succ]
        calc n / 10 * (10 ^ acc.length * 10) + n % 10 * 10 ^ acc.length
            = (n / 10 * 10 + n % 10) * 10 ^ acc.length := by ring
          _ = n * 10 ^ acc.length := by
              have hdm : n / 10 * 10 + n % 10 = n := by omega
              rw [hdm]
      omega

theorem digitsVal_natToDigits (n : Nat) : digitsVal (natToDigits n) = n := by
  unfold natToDigits
  split
  · simp [digitsVal, *]
  · rw [digitsVal_natToDigitsCore (n + 1) n [] (by omega)]
    simp [digitsVal]

theorem natToDigitsCore_length (fuel : Nat) :
    ∀ n acc, acc.length ≤ (natToDigitsCore fuel n acc).length := by
  induction fuel with
  | zero => intro n acc; simp [natToDigitsCore]
  | succ fuel ih =>
    intro n acc
    rw [natToDigitsCore]
    by_cases hz : n = 0
    · rw [if_pos hz]
    · rw [if_neg hz]
      have := ih (n / 10) (digitChar (n % 10) :: acc)
      simp only [List.length_cons] at this
      omega

theorem natToDigits_ne_nil (n : Nat) : natToDigits n ≠ [] := by
  unfold natToDigits
  split
  · simp
  · intro hcontra
    have h1 := natToDigitsCore_length n n ([digitChar (n % 10)])
    have h2 : natToDigitsCore (n + 1) n [] = [] := hcontra
    rw [natToDigitsCore] at h2
    rw [if_neg (by omega)] at h2
    have h3 := natToDigitsCore_length n (n / 10) (digitChar (n % 10) :: [])
    rw [h2] at h3
    simp at h3

/-- Decomposition of a list into its trailing-zero-stripped prefix and the
stripped zeros. -/
theorem stripTrailingZeros_spec (l : List Char) :
    l = stripTrailingZeros l
        ++ List.replicate (l.length - (stripTrailingZeros l).length) '0' := by
  unfold stripTrailingZeros
  have hdecomp : List.takeWhile (· == '0') l.reverse
      ++ List.dropWhile (· == '0') l.reverse = l.reverse :=
    List.takeWhile_append_dropWhile _ _
  have htake : List.takeWhile (· == '0') l.reverse
      = List.replicate (List.takeWhile (· == '0') l.reverse).length '0' := by
    apply List.eq_replicate_of_mem
    intro c hc
    have := List.mem_takeWhile_imp hc
    simpa using this
  have hlen : l.length = (List.takeWhile (· == '0') l.reverse).length
      + (List.dropWhile (· == '0') l.reverse).length := by
    have h1 := congrArg List.length hdecomp
    simp only [List.length_append, List.length_reverse] at h1
    omega
  conv_lhs => rw [← List.reverse_reverse l, ← hdecomp]
  rw [List.reverse_append]
  congr 1
  conv_lhs => rw [htake]
  rw [List.reverse_replicate]
  congr 1
  simp only [List.length_reverse]
  omega

/-- The exact value computed by the variant-B decoder core on any digit list:
`digitsVal s0 / 10 ^ d`, for non-negative `decimals`. -/
theorem decodeDigits_eq (s0 : List Char) (d : Nat) :
    decodeDigits s0 (d : Int) = (digitsVal s0 : ℚ) / 10 ^ d := by
  rw [decodeDigits]
  set s : List Char := padLoop (d : Int) s0 with hs
  have hval : digitsVal s = digitsVal s0 := by
    rw [hs]
    unfold padLoop
    rw [digitsVal_padLeft]
  have hslen : d < s.length := by
    rw [hs]
    unfold padLoop
    simp only [List.length_append, List.length_replicate]
    have : ((d : Int) + 1).toNat = d + 1 := by omega
    rw [this]
    omega
  -- resolve the two slices
  have hidx0 : jsSliceIdx s.length 0 = 0 := by
    unfold jsSliceIdx
    rw [if_neg (by omega)]
    omega
  have hidxn : jsSliceIdx s.length ((s.length : Int) - (d : Int)) = s.length - d := by
    unfold jsSliceIdx
    rw [if_neg (by omega)]
    omega
  have hidxend : jsSliceIdx s.length (s.length : Int) = s.length := by
    unfold jsSliceIdx
    rw [if_neg (by omega)]
    omega
  have hint : jsSlice s 0 ((s.length : Int) - (d : Int)) = s.take (s.length - d) := by
    unfold jsSlice
    rw [hidx0, hidxn]
    simp
  have hfrac0 : jsSliceFrom s ((s.length : Int) - (d : Int)) = s.drop (s.length - d) := by
    unfold jsSliceFrom jsSlice
    rw [hidxn, hidxend]
    simp
  rw [hint, hfrac0]
  set I := s.take (s.length - d) with hI
  set F0 := s.drop (s.length - d) with hF0
  have hF0len : F0.length = d := by
    rw [hF0]
    simp
    omega
  set F := stripTrailingZeros F0 with hF
  set k := F0.length - F.length with hk
  have hdecF0 : F0 = F ++ List.replicate k '0' := stripTrailingZeros_spec F0
  have hFlen : F.length + k = d := by
    have : F0.length = F.length + k := by
      conv_lhs => rw [hdecF0]
      simp
    omega
  have hsval : digitsVal s = digitsVal I * 10 ^ d + digitsVal F * 10 ^ k := by
    conv_lhs => rw [← List.take_append_drop (s.length - d) s]
    rw [← hI, ← hF0, digitsVal_append, hF0len, hdecF0, digitsVal_append]
    have : digitsVal (List.replicate k '0') = 0 :=
      digitsVal_zeros (fun c hc => List.eq_of_mem_replicate hc)
    rw [this]
    simp only [List.length_replicate]
    ring
  unfold decimalVal
  push_cast
  have h10F : (10 : ℚ) ^ F.length ≠ 0 := by positivity
  have h10k : (10 : ℚ) ^ k ≠ 0 := by positivity
  have hFld : (10 : ℚ) ^ d = 10 ^ F.length * 10 ^ k := by
    rw [← pow_add, hFlen]
  have hsq : (digitsVal s0 : ℚ) = (digitsVal I : ℚ) * 10 ^ d + (digitsVal F : ℚ) * 10 ^ k := by
    rw [← hval]
    exact_mod_cast hsval
  rw [hsq, hFld, eq_div_iff (by positivity), add_mul, div_mul_eq_mul_div,
    mul_comm ((10 : ℚ) ^ F.length) ((10 : ℚ) ^ k), ← mul_assoc, mul_div_assoc,
    mul_div_assoc, div_self h10F, mul_one]

/-- The exact value computed by the variant-A decoder core. -/
theorem decodeAmountA_eq (raw : String) (d : Nat) (h : allDigits raw = true) :
    decodeAmountA raw (d : Int) = some ((digitsVal raw.toList : ℚ) / 10 ^ d) := by
  unfold decodeAmountA jsBigIntVal?
  rw [if_pos h, Option.map_some']
  congr 1
  set s := natToDigits (digitsVal raw.toList) with hsdef
  have hval : digitsVal s = digitsVal raw.toList := digitsVal_natToDigits _
  have hne : s ≠ [] := natToDigits_ne_nil _
  have hpos : 0 < s.length := List.length_pos.mpr hne
  by_cases hcase : (d : Int) < (s.length : Int)
  · rw [if_pos hcase]
    have hdlen : d < s.length := by exact_mod_cast hcase
    have hidxn : jsSliceIdx s.length ((s.length : Int) - (d : Int)) = s.length - d := by
      unfold jsSliceIdx
      rw [if_neg (by omega)]
      omega
    have hidx0 : jsSliceIdx s.length 0 = 0 := by
      unfold jsSliceIdx
      rw [if_neg (by omega)]
      omega
    have hidxe : jsSliceIdx s.length (s.length : Int) = s.length := by
      unfold jsSliceIdx
      rw [if_neg (by omega)]
      omega
    have hint : jsSlice s 0 ((s.length : Int) - (d : Int)) = s.take (s.length - d) := by
      unfold jsSlice
      rw [hidx0, hidxn]
      simp
    have hfrac : jsSliceFrom s ((s.length : Int) - (d : Int)) = s.drop (s.length - d) := by
      unfold jsSliceFrom jsSlice
      rw [hidxn, hidxe]
      simp
    rw [hint, hfrac]
    set I := s.take (s.length - d) with hI
    set F := s.drop (s.length - d) with hF
    have hFlen : F.length = d := by
      rw [hF]; simp; omega
    have hsval : digitsVal s = digitsVal I * 10 ^ d + digitsVal F := by
      conv_lhs => rw [← List.take_append_drop (s.length - d) s]
      rw [← hI, ← hF, digitsVal_append, hFlen]
    unfold decimalVal
    push_cast
    have h10 : (10 : ℚ) ^ d ≠ 0 := by positivity
    have hsq : (digitsVal raw.toList : ℚ) = (digitsVal I : ℚ) * 10 ^ d + (digitsVal F : ℚ) := by
      rw [← hval]
      exact_mod_cast hsval
    rw [hFlen, hsq, add_div, mul_div_assoc, div_self h10, mul_one]
  · rw [if_neg hcase]
    have hdlen : s.length ≤ d := by omega
    have hplen : (List.replicate (Int.toNat (d : Int) - s.length) '0' ++ s).length = d := by
      simp only [List.length_append, List.length_replicate]
      omega
    unfold decimalVal
    push_cast
    rw [hplen, digitsVal_padLeft, hval]
    have h0 : digitsVal ['0'] = 0 := by decide
    rw [h0]
    norm_num

/-- The full variant-B decoder value on digit strings. -/
theorem decodeAmount_eq (raw : String) (d : Nat) (h : allDigits raw = true) :
    decodeAmount raw (d : Int) = some ((digitsVal raw.toList : ℚ) / 10 ^ d) := by
  unfold decodeAmount jsBigIntVal?
  rw [if_pos h, Option.map_some', decodeDigits_eq, digitsVal_natToDigits]

/-- With a negative `decimals`, the JS slice clamping makes the decoder
return the whole integer: `s.slice(0, len - d)` clamps to the full string and
`s.slice(len - d)` clamps to empty. -/
theorem decodeDigits_neg (s0 : List Char) (d : Int) (hd : d < 0) :
    decodeDigits s0 d = (digitsVal s0 : ℚ) := by
  rw [decodeDigits]
  have hpad : padLoop d s0 = s0 := by
    unfold padLoop
    have : (d + 1).toNat = 0 := by omega
    rw [this]
    simp
  rw [hpad]
  set n := s0.length with hn
  have hidx0 : jsSliceIdx n 0 = 0 := by
    unfold jsSliceIdx
    rw [if_neg (by omega)]
    omega
  have hidxbig : jsSliceIdx n ((n : Int) - d) = n := by
    unfold jsSliceIdx
    rw [if_neg (by omega)]
    omega
  have hidxe : jsSliceIdx n (n : Int) = n := by
    unfold jsSliceIdx
    rw [if_neg (by omega)]
    omega
  have hint : jsSlice s0 0 ((n : Int) - d) = s0 := by
    unfold jsSlice
    rw [hidx0, hidxbig, hn]
    simp
  have hfrac : jsSliceFrom s0 ((n : Int) - d) = [] := by
    unfold jsSliceFrom jsSlice
    rw [hidxbig, hidxe, hn]
    simp
  rw [hint, hfrac]
  unfold stripTrailingZeros decimalVal
  simp [digitsVal]

/-- Negative decimals never fail: the amount is returned undivided. -/
theorem decodeAmount_neg (raw : String) (d : Int) (hd : d < 0)
    (h : allDigits raw = true) :
    decodeAmount raw d = some ((digitsVal raw.toList : ℚ)) := by
  unfold decodeAmount jsBigIntVal?
  rw [if_pos h, Option.map_some', decodeDigits_neg _ _ hd, digitsVal_natToDigits]

/-- The decoder fails exactly on non-digit input (the `BigInt` throw). -/
theorem decodeAmount_none_iff (raw : String) (d : Int) :
    decodeAmount raw d = none ↔ allDigits raw = false := by
  unfold decodeAmount jsBigIntVal?
  by_cases h : allDigits raw = true
  · rw [if_pos h, Option.map_some']
    simp [h]
  · rw [if_neg h]
    simp only [Option.map_none']
    simp only [Bool.not_eq_true] at h
    simp [h]

/-- C4: for every digit string `raw` and non-negative `decimals` `d`, both
variants of the amount decoder return exactly `raw / 10 ^ d`; in particular
`decode("1500000", 6) = 1.5` and `decode("7", 6) = 0.000007`. -/
theorem c4_amount_decoder (raw : String) (d : Nat) (h : allDigits raw = true) :
    decodeAmount raw (d : Int) = some ((digitsVal raw.toList : ℚ) / 10 ^ d)
      ∧ decodeAmountA raw (d : Int) = some ((digitsVal raw.toList : ℚ) / 10 ^ d)
      ∧ decodeAmount "1500000" ((6 : Nat) : Int) = some ((3 : ℚ) / 2)
      ∧ decodeAmount "7" ((6 : Nat) : Int) = some ((7 : ℚ) / 1000000) := by
  refine ⟨decodeAmount_eq raw d h, decodeAmountA_eq raw d h, ?_, ?_⟩
  · rw [decodeAmount_eq "1500000" 6 (by decide)]
    have hdv : digitsVal "1500000".toList = 1500000 := by decide
    rw [hdv]
    norm_num
  · rw [decodeAmount_eq "7" 6 (by decide)]
    have hdv : digitsVal "7".toList = 7 := by decide
    rw [hdv]
    norm_num

/-- C4 witness: the theorem applied at `raw = "1500000"`, `d = 6`. -/
theorem c4_amount_decoder_witness :
    decodeAmount "1500000" ((6 : Nat) : Int)
      = some ((digitsVal "1500000".toList : ℚ) / 10 ^ (6 : Nat)) :=
  (c4_amount_decoder "1500000" 6 (by decide)).1

/-- C8 counterexample: the claim says the decoder fails with
`MalformedAmount` on empty input and with `InvalidDecimals` on negative
decimals; in the code both succeed (`BigInt('')` is `0n`, and a negative
decimals count is neutralised by the slice clamping). -/
theorem c8_decoder_counterexample :
    decodeAmount "" ((6 : Nat) : Int) = some 0
      ∧ decodeAmount "0" (-3) = some 0 := by
  constructor
  · rw [decodeAmount_eq "" 6 (by decide)]
    have hdv : digitsVal "".toList = 0 := by decide
    rw [hdv]
    norm_num
  · rw [decodeAmount_neg "0" (-3) (by decide) (by decide)]
    have hdv : digitsVal "0".toList = 0 := by decide
    rw [hdv]
    norm_num

/-- C8 amended: the decoder has no `MalformedAmount` / `InvalidDecimals`
signals.  Empty `raw` decodes to `0`; a negative `decimals` is neutralised
(the value is returned undivided, as if `decimals = 0`); the only failure is
the generic exception on non-numeric `raw`, which is terminal for the item. -/
theorem c8_decoder_amended (raw : String) (d : Int) :
    (allDigits raw = true → d < 0 →
        decodeAmount raw d = some ((digitsVal raw.toList : ℚ)))
      ∧ (decodeAmount raw d = none ↔ allDigits raw = false)
      ∧ decodeAmount "" d = some 0 := by
  refine ⟨fun h hd => decodeAmount_neg raw d hd h, decodeAmount_none_iff raw d, ?_⟩
  by_cases hd : d < 0
  · rw [decodeAmount_neg "" d hd (by decide)]
    have hdv : digitsVal "".toList = 0 := by decide
    rw [hdv]
    norm_num
  · have hd0 : d = ((d.toNat : Nat) : Int) := by omega
    rw [hd0, decodeAmount_eq "" d.toNat (by decide)]
    have hdv : digitsVal "".toList = 0 := by decide
    rw [hdv]
    norm_num

/-- C8 amended witness: the amended theorem applied at `raw = "0"`,
`d = -3`. -/
theorem c8_decoder_amended_witness :
    decodeAmount "0" (-3) = some ((digitsVal "0".toList : ℚ)) :=
  (c8_decoder_amended "0" (-3)).1 (by decide) (by decide)

/-! ## Facts about the per-transaction processors -/

theorem decodeAmount_digits (raw : String) (d : Int) (h : allDigits raw = true) :
    decodeAmount raw d
      = some (decodeDigits (natToDigits (digitsVal raw.toList)) d) := by
  unfold decodeAmount jsBigIntVal?
  rw [if_pos h, Option.map_some']

theorem decodeAmount_six (raw : String) (n : Nat) (h : allDigits raw = true)
    (hv : digitsVal raw.toList = n) :
    decodeAmount raw (6 : Int) = some ((n : ℚ) / 10 ^ (6 : Nat)) := by
  have h6 : (6 : Int) = ((6 : Nat) : Int) := by norm_num
  rw [h6, decodeAmount_eq raw 6 h, hv]

theorem buildRecordsB_txHash (hash : String) (items : List TransferItem) :
    ∀ rest l, buildRecordsB hash items rest = .ok l → ∀ r ∈ l, r.txHash = hash := by
  intro rest
  induction rest with
  | nil =>
    intro l hl r hr
    rw [buildRecordsB] at hl
    cases hl
    simp at hr
  | cons it rest ih =>
    intro l hl r hr
    rw [buildRecordsB] at hl
    cases hcv : cngnValB it with
    | error e => rw [hcv] at hl; simp [Bind.bind, Except.bind] at hl
    | ok cv =>
      rw [hcv] at hl
      simp only [Bind.bind, Except.bind] at hl
      cases hu : usdValueB items it cv with
      | error e => rw [hu] at hl; simp [Except.bind] at hl
      | ok u =>
        rw [hu] at hl
        simp only [Except.bind] at hl
        cases ht : buildRecordsB hash items rest with
        | error e => rw [ht] at hl; simp [Except.bind] at hl
        | ok tail =>
          rw [ht] at hl
          simp only [Except.bind, Pure.pure, Except.pure, Except.ok.injEq] at hl
          subst hl
          rcases List.mem_cons.mp hr with hr1 | hr2
          · rw [hr1]
          · exact ih tail ht r hr2

theorem processB_txHash (present : Bool) (hash : String)
    (items : List TransferItem) :
    ∀ l, processSingleTransactionB present hash items = .ok l →
      ∀ r ∈ l, r.txHash = hash := by
  intro l hl r hr
  unfold processSingleTransactionB at hl
  split at hl
  · cases hl; simp at hr
  · split at hl
    · cases hl; simp at hr
    · exact buildRecordsB_txHash hash items _ l hl r hr

theorem processA_length (present : Bool) (hash : String)
    (items : List TransferItem) :
    ∀ l, processSingleTransactionA present hash items = .ok l → l.length ≤ 1 := by
  intro l hl
  unfold processSingleTransactionA at hl
  split at hl
  · cases hl; simp
  · split at hl
    · cases hl; simp
    · cases hfold : items.foldlM stepA ((0 : ℚ), (0 : ℚ)) with
      | error e => rw [hfold] at hl; simp [Bind.bind, Except.bind] at hl
      | ok st =>
        rw [hfold] at hl
        simp only [Bind.bind, Except.bind, Pure.pure, Except.pure, Except.ok.injEq] at hl
        subst hl
        simp

/-! ## Facts about the hash-collection loop -/

theorem collectLoop_spec :
    ∀ (items seen batch : List String),
      batch.Nodup → (∀ b ∈ batch, b ∈ seen) →
      (collectLoop seen batch items).2.Nodup
        ∧ ∀ x ∈ (collectLoop seen batch items).2, x ∈ batch ∨ x ∉ seen := by
  intro items
  induction items with
  | nil =>
    intro seen batch hnd hsub
    exact ⟨hnd, fun x hx => Or.inl hx⟩
  | cons h rest ih =>
    intro seen batch hnd hsub
    rw [collectLoop]
    by_cases hc : (h != "" && !(seen.contains h)) = true
    · rw [if_pos hc]
      simp only [Bool.and_eq_true, bne_iff_ne, ne_eq, Bool.not_eq_true', List.contains,
        List.elem_eq_mem, decide_eq_false_iff_not] at hc
      have hnotseen : h ∉ seen := hc.2
      have hnotbatch : h ∉ batch := fun hmem => hnotseen (hsub h hmem)
      obtain ⟨hnd', hmem'⟩ := ih (seen ++ [h]) (batch ++ [h])
        (by
          rw [List.nodup_append]
          exact ⟨hnd, List.nodup_singleton h, by simpa using hnotbatch⟩)
        (by
          intro b hb
          rcases List.mem_append.mp hb with hb1 | hb2
          · exact List.mem_append_left _ (hsub b hb1)
          · exact List.mem_append_right _ hb2)
      refine ⟨hnd', fun x hx => ?_⟩
      rcases hmem' x hx with hx1 | hx2
      · rcases List.mem_append.mp hx1 with hy1 | hy2
        · exact Or.inl hy1
        · simp only [List.mem_singleton] at hy2
          subst hy2
          exact Or.inr hnotseen
      · exact Or.inr fun hxs => hx2 (List.mem_append_left _ hxs)
    · rw [if_neg hc]
      exact ih seen batch hnd hsub

theorem collectLoop_skips (H : String) :
    ∀ (items seen batch : List String), H ∈ seen → H ∉ batch →
      H ∉ (collectLoop seen batch items).2 := by
  intro items
  induction items with
  | nil =>
    intro seen batch hs hb
    simpa [collectLoop] using hb
  | cons h rest ih =>
    intro seen batch hs hb
    rw [collectLoop]
    by_cases hc : (h != "" && !(seen.contains h)) = true
    · rw [if_pos hc]
      simp only [Bool.and_eq_true, bne_iff_ne, ne_eq, Bool.not_eq_true', List.contains,
        List.elem_eq_mem, decide_eq_false_iff_not] at hc
      apply ih
      · exact List.mem_append_left _ hs
      · intro hcon
        rcases List.mem_append.mp hcon with h1 | h2
        · exact hb h1
        · simp only [List.mem_singleton] at h2
          subst h2
          exact hc.2 hs
    · rw [if_neg hc]
      exact ih seen batch hs hb

/-! ## Claim C1 -/

/-- C1 counterexample: a transaction whose only stablecoin transfer carries
symbol `USDC` (raw `5000000`, 6 decimals, so 5.0 USD by the claimed tier 1)
is valued by the code through the exchange-rate tier instead
(3.0 cNGN × rate 2 = 6): the code's tier 1 matches only `USDT`. -/
theorem c1_usd_valuator_counterexample :
    usdValueB [cngnItemRateFx, itemUsdcFx] cngnItemRateFx (some 3) = .ok 6
      ∧ usdValueSpecTiered [cngnItemRateFx, itemUsdcFx] cngnItemRateFx (some 3) = .ok 5
      ∧ (6 : ℚ) ≠ 5 := by
  have hfindT : ([cngnItemRateFx, itemUsdcFx].find? isUsdtItem) = none := by decide
  have hfindS : ([cngnItemRateFx, itemUsdcFx].find?
      (fun i => i.token.symbol == "USDT" || i.token.symbol == "USDC")) = some itemUsdcFx := by
    decide
  refine ⟨?_, ?_, by norm_num⟩
  · simp only [usdValueB, usdTier1]
    rw [hfindT]
    norm_num [cngnItemRateFx]
  · have hd : decodeAmount "5000000" (6 : Int) = some 5 := by
      rw [decodeAmount_six "5000000" 5000000 (by decide) (by decide)]
      norm_num
    simp only [usdValueSpecTiered]
    rw [hfindS]
    simp only [itemUsdcFx, Option.getD_some, Option.getD_none, hd]
    rw [if_neg (by decide)]

/-- C1 amended: the USD valuator is total and tiered, but its first tier
matches only `USDT` (not `USDC`): if some transfer carries symbol `USDT`,
the first such transfer's decoded amount is used verbatim (when its value
field is truthy); otherwise the value is the cNGN amount times the token's
exchange rate when present, else times the hardcoded default rate — and
given well-formed amount digits it always returns a value. -/
theorem c1_usd_valuator_amended (items : List TransferItem)
    (cngnItem : TransferItem) (cv : Option ℚ)
    (hdig : ∀ u, items.find? isUsdtItem = some u →
      ∀ v, u.total.value = some v → allDigits v = true) :
    ∃ q, usdValueB items cngnItem cv = .ok q ∧
      (match items.find? isUsdtItem with
       | some u =>
         (∃ v, u.total.value = some v ∧ v ≠ "" ∧
            decodeAmount v (u.total.decimals.getD (u.token.decimals.getD 6)) = some q)
           ∨ ((u.total.value = none ∨ u.total.value = some "") ∧
              q = cv.getD 0 * cngnItem.token.exchangeRate.getD CNGN_USD_FALLBACK)
       | none => q = cv.getD 0 * cngnItem.token.exchangeRate.getD CNGN_USD_FALLBACK) := by
  cases hfind : items.find? isUsdtItem with
  | none =>
    refine ⟨cv.getD 0 * cngnItem.token.exchangeRate.getD CNGN_USD_FALLBACK, ?_, ?_⟩
    · cases hrate : cngnItem.token.exchangeRate <;>
        simp [usdValueB, usdTier1, hfind, hrate]
    · rfl
  | some u =>
    cases hv : u.total.value with
    | none =>
      refine ⟨cv.getD 0 * cngnItem.token.exchangeRate.getD CNGN_USD_FALLBACK, ?_, ?_⟩
      · cases hrate : cngnItem.token.exchangeRate <;>
          simp [usdValueB, usdTier1, hfind, hv, hrate]
      · exact Or.inr ⟨Or.inl hv, rfl⟩
    | some v =>
      by_cases hve : v = ""
      · subst hve
        refine ⟨cv.getD 0 * cngnItem.token.exchangeRate.getD CNGN_USD_FALLBACK, ?_, ?_⟩
        · cases hrate : cngnItem.token.exchangeRate <;>
            simp [usdValueB, usdTier1, hfind, hv, hrate]
        · exact Or.inr ⟨Or.inr hv, rfl⟩
      · have hdec := decodeAmount_digits v
          (u.total.decimals.getD (u.token.decimals.getD 6)) (hdig u hfind v hv)
        refine ⟨decodeDigits (natToDigits (digitsVal v.toList))
          (u.total.decimals.getD (u.token.decimals.getD 6)), ?_, ?_⟩
        · simp [usdValueB, usdTier1, hfind, hv, hve, hdec]
        · exact Or.inl ⟨v, hv, hve, hdec⟩

/-- C1 witness: the amended theorem applied with no transfers and the
rate-carrying cNGN fixture. -/
theorem c1_usd_valuator_amended_witness :
    usdValueB [] cngnItemRateFx (some 3)
      = .ok ((some (3 : ℚ)).getD 0
          * cngnItemRateFx.token.exchangeRate.getD CNGN_USD_FALLBACK) := by
  obtain ⟨q, hq, hm⟩ := c1_usd_valuator_amended [] cngnItemRateFx (some 3)
    (by intro u hu; simp at hu)
  simp only [List.find?_nil] at hm
  rw [hm] at hq
  exact hq

/-! ## Claim C3 -/

/-- C3 counterexample: variant B emits two distinct rows that share one
transaction hash when a transaction contains two cNGN transfers, so
`transactionHash` is duplicated across the persisted ledger. -/
theorem c3_hash_uniqueness_counterexample :
    processSingleTransactionB true "0xabc" [itemCngnOne, itemCngnTwo]
        = .ok [⟨"0xabc", some 1, 657 / 1000000⟩, ⟨"0xabc", some 2, 657 / 500000⟩]
      ∧ ((⟨"0xabc", some 1, 657 / 1000000⟩ : RecordB) ≠ ⟨"0xabc", some 2, 657 / 500000⟩)
      ∧ ((⟨"0xabc", some 1, 657 / 1000000⟩ : RecordB)).txHash
          = ((⟨"0xabc", some 2, 657 / 500000⟩ : RecordB)).txHash := by
  have hfil : (([itemCngnOne, itemCngnTwo] : List TransferItem).filter isCngnItem)
      = [itemCngnOne, itemCngnTwo] := by decide
  have hfind : (([itemCngnOne, itemCngnTwo] : List TransferItem).find? isUsdtItem)
      = none := by decide
  have hd1 : decodeAmount "1000000" (6 : Int) = some 1 := by
    rw [decodeAmount_six "1000000" 1000000 (by decide) (by decide)]
    norm_num
  have hd2 : decodeAmount "2000000" (6 : Int) = some 2 := by
    rw [decodeAmount_six "2000000" 2000000 (by decide) (by decide)]
    norm_num
  have hcv1 : cngnValB itemCngnOne = .ok (some 1) := by
    simp only [cngnValB, itemCngnOne, cngnTokenFx, Option.getD_some]
    rw [if_neg (by decide), hd1]
  have hcv2 : cngnValB itemCngnTwo = .ok (some 2) := by
    simp only [cngnValB, itemCngnTwo, cngnTokenFx, Option.getD_some]
    rw [if_neg (by decide), hd2]
  have hu1 : usdValueB [itemCngnOne, itemCngnTwo] itemCngnOne (some 1)
      = .ok (657 / 1000000) := by
    simp only [usdValueB, usdTier1]
    rw [hfind]
    simp only [itemCngnOne, cngnTokenFx, Option.getD_some, Except.ok.injEq]
    norm_num [CNGN_USD_FALLBACK]
  have hu2 : usdValueB [itemCngnOne, itemCngnTwo] itemCngnTwo (some 2)
      = .ok (657 / 500000) := by
    simp only [usdValueB, usdTier1]
    rw [hfind]
    simp only [itemCngnTwo, cngnTokenFx, Option.getD_some, Except.ok.injEq]
    norm_num [CNGN_USD_FALLBACK]
  refine ⟨?_, ?_, rfl⟩
  · have hb2 : buildRecordsB "0xabc" [itemCngnOne, itemCngnTwo] [itemCngnTwo]
        = .ok [⟨"0xabc", some 2, 657 / 500000⟩] := by
      rw [buildRecordsB, hcv2]
      simp only [Bind.bind, Except.bind]
      rw [hu2]
      simp only [Except.bind]
      rw [buildRecordsB]
      simp only [Except.bind, Pure.pure, Except.pure]
    have hb : buildRecordsB "0xabc" [itemCngnOne, itemCngnTwo] [itemCngnOne, itemCngnTwo]
        = .ok [⟨"0xabc", some 1, 657 / 1000000⟩, ⟨"0xabc", some 2, 657 / 500000⟩] := by
      rw [buildRecordsB, hcv1]
      simp only [Bind.bind, Except.bind]
      rw [hu1]
      simp only [Except.bind]
      rw [hb2]
      simp only [Except.bind, Pure.pure, Except.pure]
    rw [processSingleTransactionB, hfil]
    simp only [Bool.not_true, Bool.false_eq_true, if_false, List.isEmpty_cons]
    exact hb
  · intro hco
    have h1 := congrArg RecordB.cngnAmount hco
    simp only [Option.some.injEq] at h1
    exact absurd h1 (by norm_num)

/-- C3 amended: hash uniqueness holds at the transaction level, not the row
level: the batch of newly collected hashes is duplicate-free and disjoint
from the hashes already seen (so no transaction is processed twice), variant
A appends at most one row per transaction, and every variant-B row carries
its transaction's hash (several rows of one transaction may share it).
Append remains the only mutation. -/
theorem c3_hash_uniqueness_amended (seen items : List String) (present : Bool)
    (hash : String) (titems : List TransferItem) :
    (collectLoop seen [] items).2.Nodup
      ∧ (∀ x ∈ (collectLoop seen [] items).2, x ∉ seen)
      ∧ (∀ l, processSingleTransactionA present hash titems = .ok l → l.length ≤ 1)
      ∧ (∀ l, processSingleTransactionB present hash titems = .ok l →
          ∀ r ∈ l, r.txHash = hash) := by
  obtain ⟨hnd, hmem⟩ := collectLoop_spec items seen [] List.nodup_nil (by simp)
  refine ⟨hnd, fun x hx => ?_, processA_length present hash titems,
    processB_txHash present hash titems⟩
  rcases hmem x hx with h1 | h2
  · simp at h1
  · exact h2

/-- C3 amended witness: the amended theorem applied at a concrete seen set
and item stream with repeats and a falsy hash. -/
theorem c3_hash_uniqueness_amended_witness :
    (collectLoop ["0xaa"] [] ["0xaa", "0xbb", "0xbb", ""]).2.Nodup :=
  (c3_hash_uniqueness_amended ["0xaa"] ["0xaa", "0xbb", "0xbb", ""] true "0xabc" []).1

/-! ## Facts about the resume scan -/

theorem stripQuotes_empty : stripQuotes "" = "" := by decide

theorem startsWith0x_empty : startsWith0x "" = false := by decide

theorem loadStep_mem (acc : List String) (line h : String) :
    h ∈ loadStep acc line ↔
      h ∈ acc ∨ (stripQuotes (firstField line) = h ∧ startsWith0x h = true) := by
  unfold loadStep
  by_cases h1 : firstField line ≠ ""
  · rw [if_pos h1]
    by_cases h2 : startsWith0x (stripQuotes (firstField line)) = true
    · rw [if_pos h2]
      rw [List.mem_append, List.mem_singleton]
      constructor
      · rintro (ha | he)
        · exact Or.inl ha
        · exact Or.inr ⟨he.symm, he ▸ h2⟩
      · rintro (ha | ⟨hs, _⟩)
        · exact Or.inl ha
        · exact Or.inr hs.symm
    · rw [if_neg h2]
      constructor
      · exact Or.inl
      · rintro (ha | ⟨hs, hw⟩)
        · exact ha
        · exact absurd (hs ▸ hw) h2
  · rw [if_neg h1]
    push_neg at h1
    constructor
    · exact Or.inl
    · rintro (ha | ⟨hs, hw⟩)
      · exact ha
      · rw [h1, stripQuotes_empty] at hs
        rw [← hs, startsWith0x_empty] at hw
        cases hw


theorem loadFold_mem (rows : List String) :
    ∀ (acc : List String) (h : String),
      h ∈ rows.foldl loadStep acc ↔
        h ∈ acc ∨ ∃ line ∈ rows, stripQuotes (firstField line) = h
          ∧ startsWith0x h = true := by
  induction rows with
  | nil =>
    intro acc h
    simp
  | cons line rest ih =>
    intro acc h
    rw [List.foldl_cons, ih, loadStep_mem]
    constructor
    · rintro ((ha | ⟨hs, hw⟩) | ⟨l, hl, hs, hw⟩)
      · exact Or.inl ha
      · exact Or.inr ⟨line, List.mem_cons_self line rest, hs, hw⟩
      · exact Or.inr ⟨l, List.mem_cons_of_mem line hl, hs, hw⟩
    · rintro (ha | ⟨l, hl, hs, hw⟩)
      · exact Or.inl (Or.inl ha)
      · rcases List.mem_cons.mp hl with rfl | hl2
        · exact Or.inl (Or.inr ⟨hs, hw⟩)
        · exact Or.inr ⟨l, hl2, hs, hw⟩

theorem loadExistingHashes_mem (lines : List String) (h : String) :
    h ∈ loadExistingHashes lines ↔
      ∃ line ∈ lines.tail, stripQuotes (firstField line) = h
        ∧ startsWith0x h = true := by
  cases lines with
  | nil => simp [loadExistingHashes]
  | cons header rest =>
    rw [loadExistingHashes]
    rw [loadFold_mem]
    simp

theorem dropLeadQuote_id (l : List Char) (h : '"' ∉ l) : dropLeadQuote l = l := by
  cases l with
  | nil => rfl
  | cons c t =>
    unfold dropLeadQuote
    split
    · rename_i rest heq
      injection heq with h1 h2
      exfalso
      apply h
      rw [h1]
      exact List.mem_cons_self _ _
    · rfl

theorem dropTrailQuote_id (l : List Char) (h : '"' ∉ l) : dropTrailQuote l = l := by
  unfold dropTrailQuote
  split
  · rename_i rest heq
    have : '"' ∈ l.reverse := by
      rw [heq]
      exact List.mem_cons_self _ _
    exact absurd (List.mem_reverse.mp this) h
  · rfl

theorem stripQuotes_id (s : String) (h : '"' ∉ s.toList) : stripQuotes s = s := by
  unfold stripQuotes
  rw [dropLeadQuote_id _ h, dropTrailQuote_id _ h]
  rfl

theorem escapeCsv_id (v : String) (hnc : ',' ∉ v.toList) (hnq : '"' ∉ v.toList)
    (hnn : '\n' ∉ v.toList) : escapeCsv v = v := by
  have hc : (v.toList.contains ',' || v.toList.contains '"'
      || v.toList.contains '\n') = false := by
    simp only [List.contains, List.elem_eq_mem, Bool.or_eq_false_iff,
      decide_eq_false_iff_not]
    exact ⟨⟨hnc, hnq⟩, hnn⟩
  unfold escapeCsv
  simp only [hc, Bool.false_eq_true, if_false]

theorem takeWhileAll (p : Char → Bool) :
    ∀ (xs : List Char) (c : Char) (ys : List Char),
      (∀ x ∈ xs, p x = true) → p c = false →
      (xs ++ c :: ys).takeWhile p = xs := by
  intro xs
  induction xs with
  | nil =>
    intro c ys _ hc
    simp [List.takeWhile_cons, hc]
  | cons a as ih =>
    intro c ys hall hc
    have ha : p a = true := hall a (List.mem_cons_self _ _)
    simp only [List.cons_append, List.takeWhile_cons, ha, if_true]
    rw [ih c ys (fun x hx => hall x (List.mem_cons_of_mem a hx)) hc]

theorem firstField_of_row (Hs rest : String) (hnc : ',' ∉ Hs.toList) :
    firstField (Hs ++ "," ++ rest) = Hs := by
  unfold firstField
  have hdata : (Hs ++ "," ++ rest).toList = Hs.toList ++ ',' :: rest.toList := by
    simp [String.toList, String.data_append]
  rw [hdata, takeWhileAll (fun c => c != ',') Hs.toList ',' rest.toList
    (fun x hx => by

      simpa using fun hxe : x = ',' => hnc (hxe ▸ hx)) (by decide)]
  rfl
/-! ## Claim C10 -/

/-- C10: the rebuilt dedup index contains exactly the quote-stripped first
comma-separated field of each non-header line when that stripped field
begins with `0x`; a first field not beginning with `0x` contributes
nothing, and any hash absent from the index is collected (hence fetched and
appended) again. -/
theorem c10_dedup_index_contents (lines : List String) (h g : String) :
    (h ∈ loadExistingHashes lines ↔
        ∃ line ∈ lines.tail, stripQuotes (firstField line) = h
          ∧ startsWith0x h = true)
      ∧ (startsWith0x g = false → g ∉ loadExistingHashes lines)
      ∧ (g ≠ "" → g ∉ loadExistingHashes lines →
          g ∈ (collectLoop (loadExistingHashes lines) [] [g]).2) := by
  refine ⟨loadExistingHashes_mem lines h, ?_, ?_⟩
  · intro hsw hmem
    obtain ⟨_, _, _, hw⟩ := (loadExistingHashes_mem lines g).mp hmem
    rw [hsw] at hw
    cases hw
  · intro hg hnm
    rw [collectLoop]
    rw [if_pos]
    · rw [collectLoop]
      simp
    · simp only [Bool.and_eq_true, bne_iff_ne, ne_eq, Bool.not_eq_true',
        List.contains, List.elem_eq_mem, decide_eq_false_iff_not]
      exact ⟨hg, hnm⟩

/-- C10 witness: the theorem applied to a concrete three-line ledger. -/
theorem c10_dedup_index_contents_witness :
    "bar" ∉ loadExistingHashes ["header", "0xdd,foo", "bar,1"] :=
  (c10_dedup_index_contents ["header", "0xdd,foo", "bar,1"] "0xdd" "bar").2.1
    (by decide)

/-! ## Claim C7 -/

/-- C7: once a row for hash `H` (a real `0x…` hash: no comma, quote or
newline) has been appended to the ledger, a re-run rebuilds the dedup index
containing `H` and the collection loop never re-adds `H` to a processing
batch, whatever the upstream returns — so `H` is neither re-processed nor
re-appended. -/
theorem c7_resume_never_readds (header rest0 : String) (pre post : List String)
    (H : String) (items : List String)
    (h0x : startsWith0x H = true)
    (hnc : ',' ∉ H.toList) (hnq : '"' ∉ H.toList) (hnn : '\n' ∉ H.toList) :
    H ∈ loadExistingHashes (header :: (pre ++ (escapeCsv H ++ "," ++ rest0) :: post))
      ∧ H ∉ (collectLoop
          (loadExistingHashes (header :: (pre ++ (escapeCsv H ++ "," ++ rest0) :: post)))
          [] items).2 := by
  have hrow : stripQuotes (firstField (escapeCsv H ++ "," ++ rest0)) = H := by
    rw [escapeCsv_id H hnc hnq hnn, firstField_of_row H rest0 hnc,
      stripQuotes_id H hnq]
  have hmem : H ∈ loadExistingHashes
      (header :: (pre ++ (escapeCsv H ++ "," ++ rest0) :: post)) := by
    rw [loadExistingHashes_mem]
    refine ⟨escapeCsv H ++ "," ++ rest0, ?_, hrow, h0x⟩
    simp
  exact ⟨hmem, collectLoop_skips H items _ [] hmem (List.not_mem_nil H)⟩

/-- C7 witness: the theorem applied to a one-row ledger and an upstream
stream that redelivers the same hash. -/
theorem c7_resume_never_readds_witness :
    "0xabc" ∈ loadExistingHashes
      ("header" :: ([] ++ (escapeCsv "0xabc" ++ "," ++ "rest") :: [])) :=
  (c7_resume_never_readds "header" "rest" [] [] "0xabc" ["0xabc"]
    (by decide) (by decide) (by decide) (by decide)).1

/-! ## Claim C9 -/

/-- C9: the per-item retry policy.  Success returns immediately with no
backoff; a failure signal containing neither `429` nor `500` is terminal at
once with no retry and no output; a `429` signal sleeps `2000 + jitter` and
consumes one retry; a `500` signal sleeps a fixed `3000` and consumes one
retry; an exhausted budget yields no result; with the default budget of 3,
three retryable failures drop the item silently after exactly three
backoffs; dropped items contribute nothing to the appended rows. -/
theorem c9_retry_policy {α : Type} (f : Nat → Attempt α) (jitter : Nat → ℚ) :
    (∀ v, f 0 = .ok v → processWithRetries f jitter = (some v, []))
      ∧ (∀ m, f 0 = .err m → containsSub m "429" = false →
          containsSub m "500" = false →
          processWithRetries f jitter = (none, []))
      ∧ (∀ i budget m, f i = .err m → containsSub m "429" = true →
          runRetries f jitter (budget + 1) i
            = ((runRetries f jitter budget (i + 1)).1,
               (2000 + jitter i) :: (runRetries f jitter budget (i + 1)).2))
      ∧ (∀ i budget m, f i = .err m → containsSub m "429" = false →
          containsSub m "500" = true →
          runRetries f jitter (budget + 1) i
            = ((runRetries f jitter budget (i + 1)).1,
               3000 :: (runRetries f jitter budget (i + 1)).2))
      ∧ (∀ i, runRetries f jitter 0 i = (none, []))
      ∧ (∀ m0 m1 m2, f 0 = .err m0 → f 1 = .err m1 → f 2 = .err m2 →
          containsSub m0 "429" = true → containsSub m1 "429" = true →
          containsSub m2 "429" = true →
          processWithRetries f jitter
            = (none, [2000 + jitter 0, 2000 + jitter 1, 2000 + jitter 2]))
      ∧ (∀ (rest : List (Option (List α))),
          collectValid (none :: rest) = collectValid rest) := by
  refine ⟨?_, ?_, ?_, ?_, ?_, ?_, ?_⟩
  · intro v hv
    unfold processWithRetries
    rw [runRetries, hv]
  · intro m hm h429 h500
    unfold processWithRetries
    rw [runRetries, hm]
    simp only [h429, h500, Bool.false_eq_true, if_false]
  · intro i budget m hm h429
    rw [runRetries, hm]
    simp only [h429, if_true]
  · intro i budget m hm h429 h500
    rw [runRetries, hm]
    simp only [h429, h500, Bool.false_eq_true, if_false, if_true]
  · intro i
    rw [runRetries]
  · intro m0 m1 m2 h0 h1 h2 c0 c1 c2
    unfold processWithRetries
    rw [runRetries, h0]
    simp only [c0, if_true]
    rw [runRetries, h1]
    simp only [c1, if_true]
    rw [runRetries, h2]
    simp only [c2, if_true]
    rw [runRetries]
  · intro rest
    rfl

/-- C9 witness: a terminal (non-429, non-500) failure on the first attempt
drops the item with no backoff. -/
theorem c9_retry_policy_witness :
    processWithRetries (fun _ => (Attempt.err "HTTP 404" : Attempt Unit))
      (fun _ => 0) = (none, []) :=
  (c9_retry_policy (fun _ => (Attempt.err "HTTP 404" : Attempt Unit))
    (fun _ => 0)).2.1 "HTTP 404" rfl (by decide) (by decide)

/-! ## Facts about the VWAP aggregation pass -/

theorem processLine_eq (m : Int → Option DailyStat) (mm : Option (Int × Int))
    (r : LedgerRow) :
    processLine (m, mm) r
      = if qualifiesRow r = true then (updateStats m r, updateMinmax mm r.dateKey)
        else (m, mm) := by
  unfold processLine qualifiesRow
  cases hb : (r.contractName == "SwapRouter"
      && (r.tokenInSym == "USDT" || r.tokenInSym == "USDC"
          || r.tokenOutSym == "USDT" || r.tokenOutSym == "USDC"
          || (r.poolName != ""
              && (containsSub r.poolName "USDT" || containsSub r.poolName "USDC")))) with
  | false =>
    simp only [Bool.false_and, Bool.false_eq_true, if_false]
  | true =>
    simp only [Bool.true_and]
    cases hc : r.cngnRaw with
    | none => simp
    | some c =>
      cases hu : r.usdRaw with
      | none => simp
      | some u =>
        simp only [if_true]
        dsimp only
        by_cases hd : c ≤ dust ∨ u ≤ dust
        · rw [if_pos hd]
          have hfalse : (decide (dust < c) && decide (dust < u)) = false := by
            rcases hd with hd | hd
            · simp [not_lt.mpr hd]
            · simp [not_lt.mpr hd]
          rw [hfalse]
          simp
        · rw [if_neg hd]
          push_neg at hd
          have htrue : (decide (dust < c) && decide (dust < u)) = true := by
            simp only [Bool.and_eq_true, decide_eq_true_eq]
            exact hd
          rw [htrue]
          simp

theorem vwapFold_snd (rows : List LedgerRow) :
    ∀ (m0 : Int → Option DailyStat) (mm0 : Option (Int × Int)),
      (rows.foldl processLine (m0, mm0)).2
        = ((rows.filter (fun r => qualifiesRow r)).map LedgerRow.dateKey).foldl
            updateMinmax mm0 := by
  induction rows with
  | nil => intro m0 mm0; rfl
  | cons r rest ih =>
    intro m0 mm0
    rw [List.foldl_cons, processLine_eq]
    by_cases hq : qualifiesRow r = true
    · rw [if_pos hq, ih, List.filter_cons_of_pos hq, List.map_cons, List.foldl_cons]
    · rw [if_neg hq, ih, List.filter_cons_of_neg (by simpa using hq)]

theorem minmaxFold_some (ds : List Int) :
    ∀ lo hi, lo ≤ hi →
      ∃ lo2 hi2, ds.foldl updateMinmax (some (lo, hi)) = some (lo2, hi2)
        ∧ lo2 ≤ hi2
        ∧ (lo2 = lo ∨ lo2 ∈ ds) ∧ (hi2 = hi ∨ hi2 ∈ ds)
        ∧ lo2 ≤ lo ∧ hi ≤ hi2
        ∧ (∀ d ∈ ds, lo2 ≤ d ∧ d ≤ hi2) := by
  induction ds with
  | nil =>
    intro lo hi h
    exact ⟨lo, hi, rfl, h, Or.inl rfl, Or.inl rfl, le_refl _, le_refl _, by simp⟩
  | cons d rest ih =>
    intro lo hi h
    rw [List.foldl_cons]
    unfold updateMinmax
    obtain ⟨lo2, hi2, heq, hle, hloOr, hhiOr, hlo2, hhi2, hall⟩ :=
      ih (if d < lo then d else lo) (if hi < d then d else hi)
        (by split <;> split <;> omega)
    refine ⟨lo2, hi2, heq, hle, ?_, ?_, ?_, ?_, ?_⟩
    · rcases hloOr with he | hm
      · by_cases hdl : d < lo
        · rw [if_pos hdl] at he
          exact Or.inr (he ▸ List.mem_cons_self d rest)
        · rw [if_neg hdl] at he
          exact Or.inl he
      · exact Or.inr (List.mem_cons_of_mem d hm)
    · rcases hhiOr with he | hm
      · by_cases hdh : hi < d
        · rw [if_pos hdh] at he
          exact Or.inr (he ▸ List.mem_cons_self d rest)
        · rw [if_neg hdh] at he
          exact Or.inl he
      · exact Or.inr (List.mem_cons_of_mem d hm)
    · have : (if d < lo then d else lo) ≤ lo := by split <;> omega
      omega
    · have : hi ≤ (if hi < d then d else hi) := by split <;> omega
      omega
    · intro x hx
      rcases List.mem_cons.mp hx with rfl | hm
      · have h1 : lo2 ≤ (if x < lo then x else lo) := hlo2
        have h2 : (if hi < x then x else hi) ≤ hi2 := hhi2
        constructor
        · by_cases hxl : x < lo
          · rw [if_pos hxl] at h1; exact h1
          · rw [if_neg hxl] at h1; omega
        · by_cases hxh : hi < x
          · rw [if_pos hxh] at h2; exact h2
          · rw [if_neg hxh] at h2; omega
      · exact hall x hm

theorem minmaxFold_none (ds : List Int) (lo hi : Int)
    (h : ds.foldl updateMinmax none = some (lo, hi)) :
    lo ≤ hi ∧ lo ∈ ds ∧ hi ∈ ds ∧ ∀ d ∈ ds, lo ≤ d ∧ d ≤ hi := by
  cases ds with
  | nil => cases h
  | cons d rest =>
    have hstep : updateMinmax none d = some (d, d) := rfl
    rw [List.foldl_cons, hstep] at h
    obtain ⟨lo2, hi2, heq, hle, hloOr, hhiOr, hlo2, hhi2, hall⟩ :=
      minmaxFold_some rest d d (le_refl d)
    rw [heq] at h
    injection h with h2
    injection h2 with ha hb
    subst ha
    subst hb
    refine ⟨hle, ?_, ?_, ?_⟩
    · rcases hloOr with he | hm
      · exact he ▸ List.mem_cons_self d rest
      · exact List.mem_cons_of_mem d hm
    · rcases hhiOr with he | hm
      · exact he ▸ List.mem_cons_self d rest
      · exact List.mem_cons_of_mem d hm
    · intro x hx
      rcases List.mem_cons.mp hx with rfl | hm
      · omega
      · exact hall x hm

/-! ## Facts about the output walk -/

theorem stepDay_date (stats : Int → Option DailyStat) (d : Int) (last : ℚ) :
    (stepDay stats d last).1.date = d := by
  unfold stepDay
  cases stats d with
  | none => rfl
  | some st =>
    dsimp only
    by_cases h : 0 < st.totalCngn
    · rw [if_pos h]
    · rw [if_neg h]

theorem stepDay_neg (stats : Int → Option DailyStat) (d : Int) (last : ℚ)
    (h : ¬ bucketPositive stats d) :
    stepDay stats d last = (⟨d, last, 0, 0⟩, last) := by
  unfold stepDay
  cases hs : stats d with
  | none => rfl
  | some st =>
    dsimp only
    rw [if_neg fun hpos => h ⟨st, hs, hpos⟩]

theorem stepDay_pos (stats : Int → Option DailyStat) (d : Int) (last : ℚ)
    (st : DailyStat) (hs : stats d = some st) (hpos : 0 < st.totalCngn) :
    stepDay stats d last
      = (⟨d, st.totalUsd / st.totalCngn, st.totalCngn, st.totalUsd⟩,
         st.totalUsd / st.totalCngn) := by
  unfold stepDay
  rw [hs]
  dsimp only
  rw [if_pos hpos]

theorem buildRows_length (stats : Int → Option DailyStat) :
    ∀ (n : Nat) (d : Int) (last : ℚ), (buildRows stats n d last).length = n := by
  intro n
  induction n with
  | zero => intro d last; rfl
  | succ n ih =>
    intro d last
    rw [buildRows, List.length_cons, ih]

theorem buildRows_dates (stats : Int → Option DailyStat) :
    ∀ (n : Nat) (d : Int) (last : ℚ),
      (buildRows stats n d last).map VwapRecord.date
        = (List.range n).map (fun i : Nat => d + (i : Int)) := by
  intro n
  induction n with
  | zero => intro d last; rfl
  | succ n ih =>
    intro d last
    rw [buildRows, List.map_cons, stepDay_date, ih, List.range_succ_eq_map,
      List.map_cons, List.map_map]
    congr 1
    · simp
    · apply List.map_congr_left
      intro i _
      simp only [Function.comp_apply]
      push_cast
      ring

theorem buildRows_get (stats : Int → Option DailyStat) :
    ∀ (i n : Nat) (d : Int) (last : ℚ), i < n →
      (buildRows stats n d last).get? i
        = some ((stepDay stats (d + (i : Int))
            (lastKnownAfter stats i d last)).1) := by
  intro i
  induction i with
  | zero =>
    intro n d last hn
    match n, hn with
    | m + 1, _ =>
      rw [buildRows]
      simp [lastKnownAfter]
  | succ i ih =>
    intro n d last hn
    match n, hn with
    | m + 1, hn =>
      rw [buildRows]
      rw [List.get?_cons_succ]
      rw [ih m (d + 1) ((stepDay stats d last).2) (by omega)]
      have harith : (d + 1) + (i : Int) = d + ((i + 1 : Nat) : Int) := by
        push_cast
        ring
      rw [harith]
      rfl

theorem lastKnownAfter_succ (stats : Int → Option DailyStat) (n : Nat) (d : Int)
    (last : ℚ) :
    lastKnownAfter stats (n + 1) d last
      = lastKnownAfter stats n (d + 1) (stepDay stats d last).2 := rfl

theorem lastKnownAfter_const (stats : Int → Option DailyStat) :
    ∀ (n : Nat) (d : Int) (last : ℚ),
      (∀ j : Nat, j < n → ¬ bucketPositive stats (d + j)) →
      lastKnownAfter stats n d last = last := by
  intro n
  induction n with
  | zero => intro d last _; rfl
  | succ n ih =>
    intro d last h
    rw [lastKnownAfter_succ]
    have h0 : ¬ bucketPositive stats d := by
      have := h 0 (Nat.succ_pos n)
      simpa using this
    rw [stepDay_neg stats d last h0]
    apply ih
    intro j hj
    have := h (j + 1) (by omega)
    have harith : d + ((j + 1 : Nat) : Int) = (d + 1) + (j : Int) := by
      push_cast
      ring
    rw [harith] at this
    exact this

theorem lastKnownAfter_split (stats : Int → Option DailyStat) :
    ∀ (a b : Nat) (d : Int) (last : ℚ),
      lastKnownAfter stats (a + b) d last
        = lastKnownAfter stats b (d + (a : Int)) (lastKnownAfter stats a d last) := by
  intro a
  induction a with
  | zero =>
    intro b d last
    simp [lastKnownAfter]
  | succ a ih =>
    intro b d last
    have hn : (a + 1) + b = (a + b) + 1 := by omega
    rw [hn, lastKnownAfter_succ stats (a + b) d last]
    rw [ih b (d + 1) ((stepDay stats d last).2)]
    have harith : (d + 1) + (a : Int) = d + ((a + 1 : Nat) : Int) := by
      push_cast
      ring
    rw [harith, ← lastKnownAfter_succ stats a d last]

/-! ## Claim C6 -/

/-- C6: a ledger row contributes to VWAP aggregation if and only if it was
routed through the `SwapRouter` contract, involves USDT or USDC (as token
in / token out, or via a pool name containing USDT/USDC), and both parsed
amounts exceed the 1e-6 dust threshold; a row through a non-router
contract, or lacking any stablecoin signal, leaves the aggregation state
unchanged. -/
theorem c6_trade_qualification (m : Int → Option DailyStat)
    (mm : Option (Int × Int)) (r : LedgerRow) :
    (qualifiesRow r = true →
        processLine (m, mm) r = (updateStats m r, updateMinmax mm r.dateKey))
      ∧ (qualifiesRow r = false → processLine (m, mm) r = (m, mm))
      ∧ ((r.contractName == "SwapRouter") = false →
          processLine (m, mm) r = (m, mm))
      ∧ ((r.tokenInSym == "USDT" || r.tokenInSym == "USDC"
            || r.tokenOutSym == "USDT" || r.tokenOutSym == "USDC"
            || (r.poolName != ""
                && (containsSub r.poolName "USDT" || containsSub r.poolName "USDC")))
          = false → processLine (m, mm) r = (m, mm)) := by
  refine ⟨?_, ?_, ?_, ?_⟩
  · intro hq
    rw [processLine_eq, if_pos hq]
  · intro hq
    rw [processLine_eq, if_neg (by simp [hq])]
  · intro hc
    have hq : qualifiesRow r = false := by
      unfold qualifiesRow
      rw [hc]
      simp
    rw [processLine_eq, if_neg (by simp [hq])]
  · intro hs
    have hq : qualifiesRow r = false := by
      unfold qualifiesRow
      rw [hs]
      simp
    rw [processLine_eq, if_neg (by simp [hq])]

/-- C6 witness: a non-router row leaves the state unchanged. -/
theorem c6_trade_qualification_witness :
    processLine ((fun _ => none), none) rowNonRouterFx = ((fun _ => none), none) :=
  (c6_trade_qualification (fun _ => none) none rowNonRouterFx).2.2.1 (by decide)

/-! ## Claim C5 -/

/-- C5: in the output series, every date whose bucket has no positive
qualifying volume is emitted with zero for both volume fields and the
carried-forward price: the price of the latest previous day with positive
volume, or 0 when no such day exists yet. -/
theorem c5_vwap_carry_forward (stats : Int → Option DailyStat) (lo hi : Int)
    (i : Nat) (hlen : i < (generateSeries stats lo hi).length)
    (hzero : ¬ bucketPositive stats (lo + (i : Int))) :
    ((generateSeries stats lo hi).get? i
        = some ⟨lo + (i : Int), lastKnownAfter stats i lo 0, 0, 0⟩)
      ∧ ((∀ j : Nat, j < i → ¬ bucketPositive stats (lo + (j : Int))) →
          lastKnownAfter stats i lo 0 = 0)
      ∧ (∀ (j : Nat) (st : DailyStat), j < i →
          stats (lo + (j : Int)) = some st → 0 < st.totalCngn →
          (∀ k : Nat, j < k → k < i → ¬ bucketPositive stats (lo + (k : Int))) →
          lastKnownAfter stats i lo 0 = st.totalUsd / st.totalCngn) := by
  refine ⟨?_, ?_, ?_⟩
  · have hcount : i < (min hi (SAFETY_LIMIT - 1) + 1 - lo).toNat := by
      have h1 := hlen
      rw [generateSeries, buildRows_length] at h1
      exact h1
    rw [generateSeries, buildRows_get stats i _ lo 0 hcount,
      stepDay_neg stats _ _ hzero]
  · intro hall
    exact lastKnownAfter_const stats i lo 0 hall
  · intro j st hj hst hpos hmid
    have hsplit := lastKnownAfter_split stats j (i - j) lo 0
    rw [show j + (i - j) = i from by omega] at hsplit
    rw [hsplit, show i - j = (i - j - 1) + 1 from by omega, lastKnownAfter_succ,
      stepDay_pos stats (lo + (j : Int)) _ st hst hpos]
    apply lastKnownAfter_const
    intro t ht
    have hmk := hmid (j + 1 + t) (by omega) (by omega)
    have harith : lo + ((j + 1 + t : Nat) : Int) = (lo + (j : Int) + 1) + (t : Int) := by
      push_cast
      ring
    rw [harith] at hmk
    exact hmk

/-- C5 witness: day 1 has no bucket; it is emitted with zero volumes and the
carried price. -/
theorem c5_vwap_carry_forward_witness :
    (generateSeries statsFx 0 1).get? 1
      = some ⟨0 + ((1 : Nat) : Int), lastKnownAfter statsFx 1 0 0, 0, 0⟩ :=
  (c5_vwap_carry_forward statsFx 0 1 1
    (by rw [generateSeries, buildRows_length]; decide)
    (by
      rintro ⟨st, hst, _⟩
      norm_num [statsFx] at hst
      exact Option.noConfusion hst)).1

/-! ## Claim C2 -/

/-- C2 counterexample: a trade set whose single qualifying trade falls on
2030-01-01, the hard safety ceiling.  There is a qualifying trade (the
tracked range is `[SAFETY_LIMIT, SAFETY_LIMIT]`), so the claim demands
exactly one output record for that date, but the walk emits an empty
series. -/
theorem c2_vwap_contiguity_counterexample :
    (vwapFold [rowCeilFx]).2 = some (SAFETY_LIMIT, SAFETY_LIMIT)
      ∧ vwapSeries [rowCeilFx] = []
      ∧ (vwapSeries [rowCeilFx]).length ≠ 1 := by
  have h1 : dust < (1 : ℚ) := by norm_num [dust]
  have hq : qualifiesRow rowCeilFx = true := by
    simp [qualifiesRow, rowCeilFx, h1]
  have hfold : (vwapFold [rowCeilFx]).2 = some (SAFETY_LIMIT, SAFETY_LIMIT) := by
    rw [vwapFold, List.foldl_cons, List.foldl_nil, processLine_eq, if_pos hq]
    rfl
  have hser : vwapSeries [rowCeilFx] = [] := by
    unfold vwapSeries
    rw [hfold]
    dsimp only
    rw [generateSeries]
    have hc : (min SAFETY_LIMIT (SAFETY_LIMIT - 1) + 1 - SAFETY_LIMIT).toNat = 0 := by
      rw [min_eq_right (by omega)]
      omega
    rw [hc]
    rfl
  refine ⟨hfold, hser, ?_⟩
  rw [hser]
  decide

/-- C2 amended: provided the maximum qualifying trade date is before the
hard safety ceiling 2030-01-01, the series has exactly one record per
calendar date from the minimum to the maximum qualifying trade date
inclusive, in strictly increasing contiguous order (dates reaching the
ceiling truncate the walk there). -/
theorem c2_vwap_contiguity_amended (rows : List LedgerRow) (lo hi : Int)
    (hmm : (vwapFold rows).2 = some (lo, hi)) (hceil : hi < SAFETY_LIMIT) :
    ((vwapSeries rows).map VwapRecord.date
        = (List.range (hi + 1 - lo).toNat).map (fun i : Nat => lo + (i : Int)))
      ∧ lo ≤ hi
      ∧ lo ∈ (rows.filter (fun r => qualifiesRow r)).map LedgerRow.dateKey
      ∧ hi ∈ (rows.filter (fun r => qualifiesRow r)).map LedgerRow.dateKey
      ∧ (∀ r ∈ rows, qualifiesRow r = true → lo ≤ r.dateKey ∧ r.dateKey ≤ hi) := by
  have hmm2 : ((rows.filter (fun r => qualifiesRow r)).map LedgerRow.dateKey).foldl
      updateMinmax none = some (lo, hi) := by
    rw [← vwapFold_snd rows (fun _ => none) none]
    exact hmm
  obtain ⟨hle, hlomem, hhimem, hall⟩ := minmaxFold_none _ lo hi hmm2
  refine ⟨?_, hle, hlomem, hhimem, ?_⟩
  · have hser : vwapSeries rows = generateSeries (vwapFold rows).1 lo hi := by
      unfold vwapSeries
      rw [hmm]
    rw [hser, generateSeries, min_eq_left (by omega), buildRows_dates]
  · intro r hr hq
    exact hall r.dateKey
      (List.mem_map_of_mem _ (List.mem_filter.mpr ⟨hr, hq⟩))

/-- C2 witness: the amended theorem applied to a single qualifying trade at
day 0. -/
theorem c2_vwap_contiguity_amended_witness :
    (vwapSeries [rowQualFx]).map VwapRecord.date
      = (List.range (((0 : Int) + 1 - 0).toNat)).map (fun i : Nat => (0 : Int) + (i : Int)) :=
  (c2_vwap_contiguity_amended [rowQualFx] 0 0
    (by
      have h1 : dust < (1 : ℚ) := by norm_num [dust]
      have hq : qualifiesRow rowQualFx = true := by
        simp [qualifiesRow, rowQualFx, h1]
      rw [vwapFold, List.foldl_cons, List.foldl_nil, processLine_eq, if_pos hq]
      rfl)
    (by decide)).1

end AssetChain
